import Mathlib

/-!
Verification development for the paprika-mcp-server repository.

The development shallowly embeds the two core subsystems of the repository:

* the archive unpacking pipeline (`src/cli/actions/UnpackAction.ts`,
  `UnpackAction.onExecuteAsync`), which walks archive entries, decompresses
  and parses each one, and writes one pretty-printed JSON file per recipe
  uid, and
* the recipe store (`src/RecipeStore.ts`) with its loader
  (`src/loaders/FileSystemRecipeLoader.ts`) and the MCP tools
  (`src/mcp/tools/ListRecipesTool.ts`, `GetRecipeTool` in
  `src/mcp/BaseMcpTool.ts`).

JavaScript JSON documents are embedded as the mutual inductive `Json`
below.  `JSON.stringify(x, null, 2)` is embedded as `stringifyPretty2`
(exact two-space indentation and the standard string escaping rules), and
`JSON.parse` as `parseJson`, a whitespace-tolerant recursive-descent
parser.  Modelling choices, each noted again at the definition site:
JSON numbers are modelled as integers (the recipe schema's only numeric
field is `rating`; fractional numbers are outside the model), `\uXXXX`
escapes for surrogate code points are outside the model, and an object
with duplicate keys keeps its members in encounter order.
-/

/-! JSON documents, as produced by `JSON.parse`.  Mutual with `JsonList`
(array members) and `JsonFields` (object members in insertion order) so
that structural recursion and induction stay available.  Numbers are
modelled as integers. -/
mutual
inductive Json where
  | null : Json
  | bool : Bool → Json
  | num : Int → Json
  | str : String → Json
  | arr : JsonList → Json
  | obj : JsonFields → Json
deriving DecidableEq
inductive JsonList where
  | nil : JsonList
  | cons : Json → JsonList → JsonList
deriving DecidableEq
inductive JsonFields where
  | nil : JsonFields
  | cons : String → Json → JsonFields → JsonFields
deriving DecidableEq
end

/-- The left-brace character, kept as a named constant. -/
def lbrace : Char := Char.ofNat 123

/-- The right-brace character, kept as a named constant. -/
def rbrace : Char := Char.ofNat 125

/-- Decimal digit to character. -/
def digitChar (d : Nat) : Char :=
  match d with
  | 0 => '0' | 1 => '1' | 2 => '2' | 3 => '3' | 4 => '4'
  | 5 => '5' | 6 => '6' | 7 => '7' | 8 => '8' | _ => '9'

/-- Hexadecimal digit to character, lowercase as `JSON.stringify` emits it. -/
def hexChar (d : Nat) : Char :=
  match d with
  | 0 => '0' | 1 => '1' | 2 => '2' | 3 => '3' | 4 => '4'
  | 5 => '5' | 6 => '6' | 7 => '7' | 8 => '8' | 9 => '9'
  | 10 => 'a' | 11 => 'b' | 12 => 'c' | 13 => 'd' | 14 => 'e' | _ => 'f'

/-- Little-endian decimal digits of `n`, with explicit fuel so that the
kernel can evaluate it (the first argument is the fuel). -/
def natCharsAux : Nat → Nat → List Char
  | 0, _ => []
  | _ + 1, 0 => []
  | f + 1, n => digitChar (n % 10) :: natCharsAux f (n / 10)

/-- The decimal representation of a natural number, as `String(n)` yields it. -/
def natChars (n : Nat) : List Char :=
  if n = 0 then ['0'] else (natCharsAux n n).reverse

/-- The decimal representation of an integer, as `JSON.stringify` emits it. -/
def intChars (n : Int) : List Char :=
  if n < 0 then '-' :: natChars n.natAbs else natChars n.toNat

/-- The escape sequence `JSON.stringify` uses for one character of a string:
quote and backslash get a backslash escape, the named control characters get
their short escapes, the remaining control characters get `\u00xy`, and
everything else is emitted verbatim. -/
def escChar (c : Char) : List Char :=
  if c = '"' then ['\\', '"']
  else if c = '\\' then ['\\', '\\']
  else if c.toNat = 8 then ['\\', 'b']
  else if c.toNat = 9 then ['\\', 't']
  else if c.toNat = 10 then ['\\', 'n']
  else if c.toNat = 12 then ['\\', 'f']
  else if c.toNat = 13 then ['\\', 'r']
  else if c.toNat < 32 then ['\\', 'u', '0', '0', hexChar (c.toNat / 16), hexChar (c.toNat % 16)]
  else [c]

/-- Escape every character of a string body. -/
def escAll (l : List Char) : List Char :=
  match l with
  | [] => []
  | c :: cs => escChar c ++ escAll cs

/-- A JSON string literal: quote, escaped body, quote. -/
def quoteStr (s : String) : List Char := '"' :: (escAll s.data ++ ['"'])

/-- `2 * d` spaces: the indentation `JSON.stringify(x, null, 2)` puts before
a member nested at depth `d`. -/
def indentC (d : Nat) : List Char := List.replicate (2 * d) ' '

/-! `JSON.stringify(x, null, 2)` on the embedded documents: `emit j d` is the
text of `j` when `j` starts at nesting depth `d`.  Empty arrays and objects
print as two characters; non-empty ones put every member on its own
indented line, exactly as V8 does. -/
mutual
def emit : Json → Nat → List Char
  | .null, _ => ['n', 'u', 'l', 'l']
  | .bool true, _ => ['t', 'r', 'u', 'e']
  | .bool false, _ => ['f', 'a', 'l', 's', 'e']
  | .num n, _ => intChars n
  | .str s, _ => quoteStr s
  | .arr .nil, _ => ['[', ']']
  | .arr (.cons x xs), d =>
    '[' :: '\n' :: (indentC (d + 1) ++ emit x (d + 1) ++ emitArrRest xs (d + 1)
      ++ '\n' :: (indentC d ++ [']']))
  | .obj .nil, _ => [lbrace, rbrace]
  | .obj (.cons k v fs), d =>
    lbrace :: '\n' :: (indentC (d + 1) ++ quoteStr k ++ ':' :: ' ' :: (emit v (d + 1)
      ++ emitFldRest fs (d + 1) ++ '\n' :: (indentC d ++ [rbrace])))
def emitArrRest : JsonList → Nat → List Char
  | .nil, _ => []
  | .cons x xs, d => ',' :: '\n' :: (indentC d ++ emit x d ++ emitArrRest xs d)
def emitFldRest : JsonFields → Nat → List Char
  | .nil, _ => []
  | .cons k v fs, d =>
    ',' :: '\n' :: (indentC d ++ quoteStr k ++ ':' :: ' ' :: (emit v d ++ emitFldRest fs d))
end

/-- `JSON.stringify(j, null, 2)`. -/
def stringifyPretty2 (j : Json) : String := String.mk (emit j 0)

/-- JSON insignificant whitespace. -/
def isWsC (c : Char) : Bool := c = ' ' || c = '\n' || c = '\t' || c = '\r'

/-- Drop leading JSON whitespace. -/
def skipWs (l : List Char) : List Char := l.dropWhile isWsC

/-- Value of one hexadecimal digit character. -/
def unhex (c : Char) : Option Nat :=
  if '0' ≤ c ∧ c ≤ '9' then some (c.toNat - 48)
  else if 'a' ≤ c ∧ c ≤ 'f' then some (c.toNat - 87)
  else if 'A' ≤ c ∧ c ≤ 'F' then some (c.toNat - 55)
  else none

/-- Parse the body of a JSON string literal (the opening quote already
consumed): returns the decoded characters and the input after the closing
quote.  Handles the full escape repertoire of `JSON.parse`; a `\uXXXX`
escape decodes through `Char.ofNat`, so surrogate code points are outside
the model.  An unescaped control character is rejected, as `JSON.parse`
rejects it. -/
def parseStrChars : List Char → Option (List Char × List Char)
  | [] => none
  | c :: cs =>
    if c = '"' then some ([], cs)
    else if c = '\\' then
      match cs with
      | [] => none
      | e :: cs' =>
        if e = '"' then (parseStrChars cs').map (fun p => ('"' :: p.1, p.2))
        else if e = '\\' then (parseStrChars cs').map (fun p => ('\\' :: p.1, p.2))
        else if e = '/' then (parseStrChars cs').map (fun p => ('/' :: p.1, p.2))
        else if e = 'b' then (parseStrChars cs').map (fun p => (Char.ofNat 8 :: p.1, p.2))
        else if e = 't' then (parseStrChars cs').map (fun p => ('\t' :: p.1, p.2))
        else if e = 'n' then (parseStrChars cs').map (fun p => ('\n' :: p.1, p.2))
        else if e = 'f' then (parseStrChars cs').map (fun p => (Char.ofNat 12 :: p.1, p.2))
        else if e = 'r' then (parseStrChars cs').map (fun p => ('\r' :: p.1, p.2))
        else if e = 'u' then
          match cs' with
          | h1 :: h2 :: h3 :: h4 :: cs'' =>
            match unhex h1, unhex h2, unhex h3, unhex h4 with
            | some a, some b, some c2, some d2 =>
              (parseStrChars cs'').map
                (fun p => (Char.ofNat (((a * 16 + b) * 16 + c2) * 16 + d2) :: p.1, p.2))
            | _, _, _, _ => none
          | _ => none
        else none
    else if c.toNat < 32 then none
    else (parseStrChars cs).map (fun p => (c :: p.1, p.2))

/-- Parse a nonempty run of decimal digits into a natural number. -/
def parseNatNum (cs : List Char) : Option (Nat × List Char) :=
  let ds := cs.takeWhile Char.isDigit
  if ds.isEmpty then none
  else some (ds.foldl (fun a c => 10 * a + (c.toNat - 48)) 0, cs.dropWhile Char.isDigit)

/-! The fuel-indexed recursive-descent parser for the JSON value grammar,
modelling `JSON.parse`.  `parseVal` parses one value, `parseArrTop` the
inside of an array after `[`, `parseArrRest` the `, value`* tail of an
array, and likewise `parseObjTop`/`parseObjRest` for objects.  Integer
numerals only (the fragment `JSON.stringify` emits on the embedded
documents); every recursive call spends one unit of fuel. -/
mutual
def parseVal : Nat → List Char → Option (Json × List Char)
  | 0, _ => none
  | fuel + 1, cs0 =>
    match skipWs cs0 with
    | [] => none
    | c :: rest =>
      if c = '"' then (parseStrChars rest).map (fun p => (Json.str (String.mk p.1), p.2))
      else if c = '[' then parseArrTop fuel rest
      else if c = lbrace then parseObjTop fuel rest
      else if c = 'n' then
        match rest with
        | 'u' :: 'l' :: 'l' :: r => some (Json.null, r)
        | _ => none
      else if c = 't' then
        match rest with
        | 'r' :: 'u' :: 'e' :: r => some (Json.bool true, r)
        | _ => none
      else if c = 'f' then
        match rest with
        | 'a' :: 'l' :: 's' :: 'e' :: r => some (Json.bool false, r)
        | _ => none
      else if c = '-' then
        (parseNatNum rest).map (fun p => (Json.num (-(p.1 : Int)), p.2))
      else if c.isDigit then
        (parseNatNum (c :: rest)).map (fun p => (Json.num (p.1 : Int), p.2))
      else none
def parseArrTop : Nat → List Char → Option (Json × List Char)
  | 0, _ => none
  | fuel + 1, cs0 =>
    match skipWs cs0 with
    | [] => none
    | c :: rest =>
      if c = ']' then some (Json.arr JsonList.nil, rest)
      else
        (parseVal fuel (c :: rest)).bind fun p =>
          (parseArrRest fuel p.2).map fun q => (Json.arr (JsonList.cons p.1 q.1), q.2)
def parseArrRest : Nat → List Char → Option (JsonList × List Char)
  | 0, _ => none
  | fuel + 1, cs0 =>
    match skipWs cs0 with
    | [] => none
    | c :: rest =>
      if c = ']' then some (JsonList.nil, rest)
      else if c = ',' then
        (parseVal fuel rest).bind fun p =>
          (parseArrRest fuel p.2).map fun q => (JsonList.cons p.1 q.1, q.2)
      else none
def parseObjTop : Nat → List Char → Option (Json × List Char)
  | 0, _ => none
  | fuel + 1, cs0 =>
    match skipWs cs0 with
    | [] => none
    | c :: rest =>
      if c = rbrace then some (Json.obj JsonFields.nil, rest)
      else if c = '"' then
        (parseStrChars rest).bind fun pk =>
          match skipWs pk.2 with
          | ':' :: r2 =>
            (parseVal fuel r2).bind fun pv =>
              (parseObjRest fuel pv.2).map fun q =>
                (Json.obj (JsonFields.cons (String.mk pk.1) pv.1 q.1), q.2)
          | _ => none
      else none
def parseObjRest : Nat → List Char → Option (JsonFields × List Char)
  | 0, _ => none
  | fuel + 1, cs0 =>
    match skipWs cs0 with
    | [] => none
    | c :: rest =>
      if c = rbrace then some (JsonFields.nil, rest)
      else if c = ',' then
        match skipWs rest with
        | '"' :: r1 =>
          (parseStrChars r1).bind fun pk =>
            match skipWs pk.2 with
            | ':' :: r2 =>
              (parseVal fuel r2).bind fun pv =>
                (parseObjRest fuel pv.2).map fun q =>
                  (JsonFields.cons (String.mk pk.1) pv.1 q.1, q.2)
            | _ => none
        | _ => none
      else none
end

/-- `JSON.parse(s)`: parse one value and insist that only whitespace
follows it.  The fuel `s.length + 1` is sufficient for every input the
parser accepts (each fuel unit guards one level of the grammar). -/
def parseJson (s : String) : Option Json :=
  match parseVal (s.length + 1) s.data with
  | some (j, rest) => if (skipWs rest).isEmpty then some j else none
  | none => none


/-- List-of-chars test: the first list is an initial run of the second. -/
def isPre : List Char → List Char → Bool
  | [], _ => true
  | _ :: _, [] => false
  | a :: as, b :: bs => a == b && isPre as bs

/-- Model of `String.prototype.endsWith` (and of `Lean`-side suffix tests):
`hasSuf s t` holds when `t` is a suffix of `s`. -/
def hasSuf (s t : String) : Bool := isPre t.data.reverse s.data.reverse

/-- Contiguous-occurrence test on character lists: `occursIn n h` holds when
`n` occurs contiguously inside `h`. -/
def occursIn (n : List Char) : List Char → Bool
  | [] => n.isEmpty
  | b :: bs => isPre n (b :: bs) || occursIn n bs

/-- Model of `hay.includes(needle)` on JS strings. -/
def strIncludes (hay needle : String) : Bool := occursIn needle.data hay.data

/-- Model of `s.toLowerCase()`; `Char.toLower` lowers ASCII letters, which is
the fragment the tests and claims exercise. -/
def lowerStr (s : String) : String := String.mk (s.data.map Char.toLower)

/-- Model of the emptiness test `!query || query.trim() === ''` in
`RecipeStore.search`: a JS string trims to the empty string exactly when
every character is whitespace. -/
def blankQuery (q : String) : Bool := q.data.all isWsC

/-- One photo entry, from `types.ts`. -/
structure Photo where
  data : String
deriving DecidableEq

/-- The `Recipe` record type of `types.ts`.  `uid` and `name` are required;
every other field is optional.  The fields that the RxDB schema also allows
to be `null` are modelled with `none` covering both absence and `null`
(the two behave identically in every code path embedded here: both fail a
`typeof x === 'string'` test and both are dropped by `JSON.stringify`).
`rating` is a JS number, modelled as an integer. -/
structure Recipe where
  uid : String
  name : String
  ingredients : Option String := none
  directions : Option String := none
  description : Option String := none
  notes : Option String := none
  nutritional_info : Option String := none
  prep_time : Option String := none
  cook_time : Option String := none
  total_time : Option String := none
  servings : Option String := none
  difficulty : Option String := none
  rating : Option Int := none
  categories : Option (List String) := none
  source : Option String := none
  source_url : Option String := none
  image_url : Option String := none
  photo : Option String := none
  created : Option String := none
  hash : Option String := none
  photo_hash : Option String := none
  photo_large : Option String := none
  photo_data : Option String := none
  photos : Option (List Photo) := none
deriving DecidableEq

/-- The value of `recipe[field]` as seen by a `typeof` test: a string, a
number, an array of strings, an array of photos, or absent. -/
inductive FieldVal where
  | str : String → FieldVal
  | num : Int → FieldVal
  | strList : List String → FieldVal
  | photoList : List Photo → FieldVal
  | absent : FieldVal
deriving DecidableEq

/-- Dynamic field access `recipe[field as keyof Recipe]`, one case per field
of `types.ts`; an unknown field name is `undefined`. -/
def recipeFieldVal (r : Recipe) (f : String) : FieldVal :=
  let opt : Option String → FieldVal := fun o =>
    match o with
    | some s => FieldVal.str s
    | none => FieldVal.absent
  if f = "uid" then FieldVal.str r.uid
  else if f = "name" then FieldVal.str r.name
  else if f = "ingredients" then opt r.ingredients
  else if f = "directions" then opt r.directions
  else if f = "description" then opt r.description
  else if f = "notes" then opt r.notes
  else if f = "nutritional_info" then opt r.nutritional_info
  else if f = "prep_time" then opt r.prep_time
  else if f = "cook_time" then opt r.cook_time
  else if f = "total_time" then opt r.total_time
  else if f = "servings" then opt r.servings
  else if f = "difficulty" then opt r.difficulty
  else if f = "rating" then
    match r.rating with
    | some n => FieldVal.num n
    | none => FieldVal.absent
  else if f = "categories" then
    match r.categories with
    | some l => FieldVal.strList l
    | none => FieldVal.absent
  else if f = "source" then opt r.source
  else if f = "source_url" then opt r.source_url
  else if f = "image_url" then opt r.image_url
  else if f = "photo" then opt r.photo
  else if f = "created" then opt r.created
  else if f = "hash" then opt r.hash
  else if f = "photo_hash" then opt r.photo_hash
  else if f = "photo_large" then opt r.photo_large
  else if f = "photo_data" then opt r.photo_data
  else if f = "photos" then
    match r.photos with
    | some l => FieldVal.photoList l
    | none => FieldVal.absent
  else FieldVal.absent

/-- The per-field match test of `RecipeStore.search`: a field matches when
its value is a string whose lowercase form contains the lowercase query
(`typeof fieldValue === 'string'` and then
`fieldValue.toLowerCase().includes(queryLower)`); a non-string value never
matches. -/
def fieldMatch (r : Recipe) (query : String) (f : String) : Bool :=
  match recipeFieldVal r f with
  | FieldVal.str s => strIncludes (lowerStr s) (lowerStr query)
  | _ => false

/-- Model of the ajv validation that `wrappedValidateAjvStorage` applies on
insert against `recipeSchema` of `RecipeStore.ts`: `uid` at most 100
characters and `name` at most 500 characters.  The remaining schema
constraints (required `uid`/`name`, field types, `photos` item shape) hold
for every value of the `Recipe` structure by construction; lengths count
characters where JS counts UTF-16 units, which agree on the inputs used
here. -/
def validRecipe (r : Recipe) : Bool := r.uid.length ≤ 100 && r.name.length ≤ 500

/-- The store state: `none` mirrors `this.collection === null` before the
database setup step, `some docs` the RxDB in-memory collection holding
`docs` in insertion order. -/
structure RecipeStore where
  collection : Option (List Recipe)
deriving DecidableEq

/-- A store as constructed, before any `load()`. -/
def emptyStore : RecipeStore := RecipeStore.mk none

/-- One document write of `bulkInsert`: the document is inserted when it
passes ajv validation and no document with its primary key `uid` is
already present (a conflicting write reports status 409 and is skipped, a
validation failure status 422, both logged and skipped by `load`). -/
def insertRecipe (docs : List Recipe) (r : Recipe) : List Recipe :=
  if validRecipe r && docs.all (fun x => !(x.uid == r.uid)) then docs ++ [r] else docs

/-- `collection.bulkInsert(recipes)`: the documents are attempted in order. -/
def bulkInsert (docs : List Recipe) (recipes : List Recipe) : List Recipe :=
  recipes.foldl insertRecipe docs

/-- `RecipeStore.load()` applied to the record list the loading phase
produced (the body of `load` reads the recipe files itself — that reading
loop is `FileSystemRecipeLoader.load` inlined — and then bulk-inserts the
parsed records): the collection is created if absent and the records are
bulk-inserted. -/
def RecipeStore.load (st : RecipeStore) (recipes : List Recipe) : RecipeStore :=
  RecipeStore.mk (some (bulkInsert (st.collection.getD []) recipes))

/-- `n` successive `load()` calls against the same loader output. -/
def loadTimes (recipes : List Recipe) : Nat → RecipeStore
  | 0 => emptyStore
  | n + 1 => RecipeStore.load (loadTimes recipes n) recipes

/-- `RecipeStore.list()`: every document, `[]` before initialization. -/
def RecipeStore.list (st : RecipeStore) : List Recipe :=
  match st.collection with
  | none => []
  | some docs => docs

/-- `RecipeStore.getByUid(uid)`: `findOne` with an exact `uid` selector,
`null` when nothing matches. -/
def RecipeStore.getByUid (st : RecipeStore) (uid : String) : Option Recipe :=
  match st.collection with
  | none => none
  | some docs => docs.find? (fun r => r.uid == uid)

/-- `RecipeStore.search(query, fields?)`: everything for a blank query,
otherwise the client-side filter over all documents with the requested
fields (defaulting to name, description, ingredients, notes). -/
def RecipeStore.search (st : RecipeStore) (query : String) (fields : Option (List String)) :
    List Recipe :=
  match st.collection with
  | none => []
  | some docs =>
    if blankQuery query then docs
    else
      let searchFields := fields.getD ["name", "description", "ingredients", "notes"]
      docs.filter (fun r => searchFields.any (fieldMatch r query))

/-- The synchronous `count` getter of `RecipeStore`, whose body is
`return 0`. -/
def RecipeStore.count (_st : RecipeStore) : Nat := 0

/-- `RecipeStore.getCount()`: the collection count, `0` before
initialization. -/
def RecipeStore.getCount (st : RecipeStore) : Nat :=
  match st.collection with
  | none => 0
  | some docs => docs.length

/-- `FileSystemRecipeLoader.load()` over a modelled directory: `none` is a
missing directory (zero records), otherwise the file list as pairs of name
and readable content (`none` content is a file whose read throws).  The
files with a `.json` suffix are parsed one by one and the failures are
skipped. -/
def FileSystemRecipeLoader.load (dir : Option (List (String × Option String))) : List Json :=
  match dir with
  | none => []
  | some files =>
    (files.filter (fun f => hasSuf f.1 ".json")).filterMap (fun f => f.2.bind parseJson)

/-- The reduced projection the list and search tools return per record. -/
structure ShortRecipe where
  uid : String
  name : String
  description : Option String
  categories : Option (List String)
  total_time : Option String
  difficulty : Option String
deriving DecidableEq

/-- The projection map of `ListRecipesTool.execute`. -/
def toShortRecipe (r : Recipe) : ShortRecipe :=
  ShortRecipe.mk r.uid r.name r.description r.categories r.total_time r.difficulty

/-- The `RecipesListResponse` shape of `types.ts`, holding the projected
records and the reported count. -/
structure RecipesListResponse where
  recipes : List ShortRecipe
  count : Nat
deriving DecidableEq

/-- `arr.slice(0, limit)` on JS arrays: a negative end counts back from the
end of the array. -/
def jsSliceTo (l : List ShortRecipe) (e : Int) : List ShortRecipe :=
  if e < 0 then l.take ((l.length : Int) + e).toNat else l.take e.toNat

/-- The zod default of the `limit` parameter of the list tool. -/
def listRecipesLimitDefault : Int := 200

/-- `ListRecipesTool.execute`: project every stored record, truncate with
`slice(0, limit)`, and report `count: recipes.length` computed from the
truncated array. -/
def ListRecipesTool.execute (limit : Int) (recipeStore : RecipeStore) : RecipesListResponse :=
  let results := RecipeStore.list recipeStore
  let recipes := jsSliceTo (results.map toShortRecipe) limit
  RecipesListResponse.mk recipes recipes.length

/-- Build object members from a key-value list. -/
def fieldsOf : List (String × Json) → JsonFields
  | [] => JsonFields.nil
  | (k, v) :: rest => JsonFields.cons k v (fieldsOf rest)

/-- Build array members from a value list. -/
def jsonListOf : List Json → JsonList
  | [] => JsonList.nil
  | v :: rest => JsonList.cons v (jsonListOf rest)

/-- A key-value pair present only when the optional string is: an object
member whose value is `undefined` is dropped by `JSON.stringify`. -/
def optStrField (k : String) : Option String → List (String × Json)
  | some s => [(k, Json.str s)]
  | none => []

/-- The full-detail projection object the get tool builds from a found
record, in the insertion order of its object literal; absent optional
fields are dropped as `JSON.stringify` drops `undefined` members. -/
def recipeGetProjJson (r : Recipe) : Json :=
  Json.obj (fieldsOf (
    [("uid", Json.str r.uid), ("name", Json.str r.name)]
    ++ optStrField "description" r.description
    ++ optStrField "ingredients" r.ingredients
    ++ optStrField "directions" r.directions
    ++ optStrField "notes" r.notes
    ++ optStrField "nutritional_info" r.nutritional_info
    ++ optStrField "prep_time" r.prep_time
    ++ optStrField "cook_time" r.cook_time
    ++ optStrField "total_time" r.total_time
    ++ optStrField "servings" r.servings
    ++ optStrField "difficulty" r.difficulty
    ++ (match r.rating with
        | some n => [("rating", Json.num n)]
        | none => [])
    ++ (match r.categories with
        | some l => [("categories", Json.arr (jsonListOf (l.map Json.str)))]
        | none => [])
    ++ optStrField "source" r.source
    ++ optStrField "source_url" r.source_url))

/-- The tool result as the MCP layer sees it: the single text content block
and the `isError` flag (absent on success, modelled as `false`). -/
structure ToolResult where
  text : String
  isError : Bool
deriving DecidableEq

/-- `GetRecipeTool.execute`: look the uid up in the store; when absent,
return a structured error payload with `isError: true`; when found, return
the stringified one-element `RecipesListResponse`. -/
def GetRecipeTool.execute (uid : String) (recipeStore : RecipeStore) : ToolResult :=
  match RecipeStore.getByUid recipeStore uid with
  | none =>
    ToolResult.mk
      (stringifyPretty2 (Json.obj (fieldsOf
        [("error", Json.str ("Recipe with UID " ++ uid ++ " not found"))])))
      true
  | some r =>
    let recipes := [recipeGetProjJson r]
    ToolResult.mk
      (stringifyPretty2 (Json.obj (fieldsOf
        [("recipes", Json.arr (jsonListOf recipes)),
         ("count", Json.num (recipes.length : Int))])))
      false

/-- One archive entry as `unzipper` presents it: the entry path, the type
discriminator string, and the gunzipped UTF-8 text of its bytes, with
`none` standing for an entry whose `buffer()` or `gunzip` step throws
(a corrupt payload). -/
structure ArchiveEntry where
  path : String
  ftype : String
  content : Option String
deriving DecidableEq

/-- The relevance test of the unpack loop:
`file.type === 'File' && file.path.endsWith('.paprikarecipe')`. -/
def entryRelevant (e : ArchiveEntry) : Bool :=
  e.ftype == "File" && hasSuf e.path ".paprikarecipe"

/-- JS truthiness of a JSON value, for the `!recipe.uid` test. -/
def jsTruthy : Json → Bool
  | Json.null => false
  | Json.bool b => b
  | Json.num n => !(n == 0)
  | Json.str s => !(s == "")
  | Json.arr _ => true
  | Json.obj _ => true

/-- JS string coercion of a JSON value, for the file-name interpolation of
`recipe.uid`.  Arrays coerce through a recursive comma join in JS; that
pathological case (a truthy non-string, non-number uid) is approximated by
the empty string here and never arises in the claims. -/
def jsToStr : Json → String
  | Json.str s => s
  | Json.num n => String.mk (intChars n)
  | Json.bool b => if b then "true" else "false"
  | Json.null => "null"
  | Json.arr _ => ""
  | Json.obj _ => "[object Object]"

/-- First member with the given key, as JS property lookup sees a parsed
object (a parsed JS object cannot carry duplicate keys). -/
def lookupField : JsonFields → String → Option Json
  | JsonFields.nil, _ => none
  | JsonFields.cons k v fs, key => if k = key then some v else lookupField fs key

/-- The `recipe.uid` access of the unpack loop: a property read on the
parsed document followed by the `!recipe.uid` falsiness test.  `none`
covers every error path of the loop body that reaches the uid check — a
non-object document (whose property read yields `undefined` or throws) and
a falsy `uid` value. -/
def jsonUid : Json → Option String
  | Json.obj fs =>
    match lookupField fs "uid" with
    | some v => if jsTruthy v then some (jsToStr v) else none
    | none => none
  | _ => none

/-- The fallible per-entry pipeline of the unpack loop body: gunzip (already
folded into `ArchiveEntry.content`), `JSON.parse`, then the uid check.
`none` is exactly the case in which the loop increments `errorCount`. -/
def normalizeEntry (e : ArchiveEntry) : Option (String × Json) :=
  match e.content with
  | none => none
  | some text =>
    match parseJson text with
    | none => none
    | some j =>
      match jsonUid j with
      | none => none
      | some u => some (u, j)

/-- The running state of the unpack loop: the two counters and the output
directory contents as name-content pairs (paths relative to the output
directory). -/
structure UnpackState where
  processedCount : Nat
  errorCount : Nat
  files : List (String × String)
deriving DecidableEq

/-- `writeFile` into the output directory: any previous file of the same
name is overwritten. -/
def writeOut (files : List (String × String)) (nm text : String) : List (String × String) :=
  (files.filter (fun f => !(f.1 == nm))) ++ [(nm, text)]

/-- One iteration of the unpack loop: irrelevant entries are skipped,
a failing relevant entry increments `errorCount` and the loop continues,
and a successful one writes `<uid>.json` with the pretty-printed record
and increments `processedCount`. -/
def unpackStep (st : UnpackState) (e : ArchiveEntry) : UnpackState :=
  if entryRelevant e then
    (match normalizeEntry e with
     | some (u, j) =>
       UnpackState.mk (st.processedCount + 1) st.errorCount
         (writeOut st.files (u ++ ".json") (stringifyPretty2 j))
     | none => UnpackState.mk st.processedCount (st.errorCount + 1) st.files)
  else st

/-- `UnpackAction.onExecuteAsync` after the archive has been opened: the
strictly sequential loop over all entries starting from zero counters and
an empty (freshly created) output directory. -/
def UnpackAction.onExecuteAsync (entries : List ArchiveEntry) : UnpackState :=
  entries.foldl unpackStep (UnpackState.mk 0 0 [])

/-- A relevant entry on which the pipeline fails (the error-counter case). -/
def entryFails (e : ArchiveEntry) : Bool :=
  entryRelevant e && (normalizeEntry e).isNone

/-- A relevant entry on which the pipeline succeeds. -/
def entrySucceeds (e : ArchiveEntry) : Bool :=
  entryRelevant e && (normalizeEntry e).isSome

/-- The uid-record pairs of the entries that normalize successfully, in
processing order. -/
def successRecords (entries : List ArchiveEntry) : List (String × Json) :=
  entries.filterMap (fun e => if entryRelevant e then normalizeEntry e else none)

/-! Parser fuel measure of one document. -/
mutual
def sizeJ : Json → Nat
  | .null => 1
  | .bool _ => 1
  | .num _ => 1
  | .str _ => 1
  | .arr xs => 1 + sizeL xs
  | .obj fs => 1 + sizeF fs
def sizeL : JsonList → Nat
  | .nil => 1
  | .cons x xs => 1 + sizeJ x + sizeL xs
def sizeF : JsonFields → Nat
  | .nil => 1
  | .cons _ v fs => 1 + sizeJ v + sizeF fs
end

/-- A list that does not begin with a decimal digit (so that a numeral
emitted in front of it parses back unmerged). -/
def headNotDigit : List Char → Bool
  | [] => true
  | c :: _ => !c.isDigit

/-- Proof-side description of the net effect of `bulkInsert`: keep, in
order, the first schema-valid record per uid whose uid is not already
among `seen`. -/
def firstWinsAux : List String → List Recipe → List Recipe
  | _, [] => []
  | seen, r :: rs =>
    if validRecipe r && seen.all (fun s => !(s == r.uid)) then
      r :: firstWinsAux (r.uid :: seen) rs
    else firstWinsAux seen rs

/-- The two-field example document the concrete theorems use. -/
def demoJson : Json :=
  Json.obj (JsonFields.cons "uid" (Json.str "A")
    (JsonFields.cons "name" (Json.str "X") JsonFields.nil))

/-- A relevant archive entry whose payload fails to decompress. -/
def corruptEntry : ArchiveEntry := ArchiveEntry.mk "bad.paprikarecipe" "File" none

/-- A relevant archive entry carrying the pretty-printed demo document. -/
def validEntry : ArchiveEntry :=
  ArchiveEntry.mk "good.paprikarecipe" "File" (some (stringifyPretty2 demoJson))

/-- A record whose uid exceeds the maxLength 100 bound of the schema. -/
def longUidRecipe : Recipe :=
  { uid := String.mk (List.replicate 101 'a'), name := "X" }

/-- The search example of the spec: a soup whose notes say freeze well. -/
def soupRecipe : Recipe :=
  { uid := "1", name := "Tomato Soup", notes := some "freeze well" }

/-- Two minimal records with distinct uids. -/
def recipeA : Recipe := { uid := "A", name := "First" }

/-- Second demo record. -/
def recipeB : Recipe := { uid := "B", name := "Second" }

/-- A store holding the two demo records, as after a successful load. -/
def twoRecipeStore : RecipeStore := RecipeStore.mk (some [recipeA, recipeB])

theorem strMkData (s : String) : String.mk s.data = s := by
  cases s
  rfl

theorem skipWs_nil : skipWs [] = [] := rfl

theorem skipWs_cons (c : Char) (l : List Char) :
    skipWs (c :: l) = if isWsC c then skipWs l else c :: l := by
  simp [skipWs, List.dropWhile_cons]

theorem skipWs_not {c : Char} (l : List Char) (h : isWsC c = false) :
    skipWs (c :: l) = c :: l := by
  simp [skipWs_cons, h]

theorem skipWs_ws {c : Char} (l : List Char) (h : isWsC c = true) :
    skipWs (c :: l) = skipWs l := by
  simp [skipWs_cons, h]

theorem skipWs_replicate (n : Nat) (l : List Char) :
    skipWs (List.replicate n ' ' ++ l) = skipWs l := by
  induction n with
  | zero => simp
  | succ n ih =>
    rw [List.replicate_succ, List.cons_append, skipWs_ws _ (by decide)]
    exact ih

theorem skipWs_indent (d : Nat) (l : List Char) : skipWs (indentC d ++ l) = skipWs l :=
  skipWs_replicate (2 * d) l

theorem skipWs_newline (l : List Char) : skipWs ('\n' :: l) = skipWs l :=
  skipWs_ws l (by decide)

theorem takeWhile_all_append {p : Char → Bool} {l : List Char} (r : List Char)
    (hl : l.all p = true) (hr : ∀ c t, r = c :: t → p c = false) :
    (l ++ r).takeWhile p = l ∧ (l ++ r).dropWhile p = r := by
  induction l with
  | nil =>
    cases r with
    | nil => simp
    | cons c t =>
      simp [List.takeWhile_cons, List.dropWhile_cons, hr c t rfl]
  | cons a l ih =>
    simp only [List.all_cons, Bool.and_eq_true] at hl
    have := ih hl.2
    simp [List.takeWhile_cons, List.dropWhile_cons, hl.1, this.1, this.2]

theorem digitChar_toNat {d : Nat} (h : d < 10) : (digitChar d).toNat - 48 = d := by
  interval_cases d <;> decide

theorem digitChar_isDigit {d : Nat} (h : d < 10) : (digitChar d).isDigit = true := by
  interval_cases d <;> decide

theorem natCharsAux_eq_digits : ∀ f n, n ≤ f → natCharsAux f n = (Nat.digits 10 n).map digitChar := by
  intro f
  induction f with
  | zero =>
    intro n hn
    interval_cases n
    simp [natCharsAux]
  | succ f ih =>
    intro n hn
    cases n with
    | zero => simp [natCharsAux]
    | succ m =>
      rw [Nat.digits_def' (by norm_num) (Nat.succ_pos m)]
      have hd : (m + 1) / 10 ≤ f := by
        have := Nat.div_lt_self (Nat.succ_pos m) (by norm_num : 1 < 10)
        omega
      simp [natCharsAux, ih _ hd]

theorem natChars_eq_digits {n : Nat} (h : n ≠ 0) :
    natChars n = ((Nat.digits 10 n).map digitChar).reverse := by
  rw [natChars, if_neg h, natCharsAux_eq_digits n n (le_refl n)]

theorem natChars_all_digit (n : Nat) : (natChars n).all Char.isDigit = true := by
  by_cases h : n = 0
  · subst h
    decide
  · rw [natChars_eq_digits h]
    simp only [List.all_eq_true, List.mem_reverse, List.mem_map]
    rintro c ⟨d, hd, rfl⟩
    exact digitChar_isDigit (Nat.digits_lt_base (by norm_num) hd)

theorem natChars_ne_nil (n : Nat) : natChars n ≠ [] := by
  by_cases h : n = 0
  · subst h
    decide
  · rw [natChars_eq_digits h]
    simp [Nat.digits_ne_nil_iff_ne_zero, h]

theorem foldr_digitChar_ofDigits (D : List Nat) (hD : ∀ d ∈ D, d < 10) :
    D.foldr (fun d y => 10 * y + ((digitChar d).toNat - 48)) 0 = Nat.ofDigits 10 D := by
  induction D with
  | nil => simp [Nat.ofDigits_nil]
  | cons d D ih =>
    have h1 : d < 10 := hD d (List.mem_cons_self d D)
    have h2 : ∀ x ∈ D, x < 10 := fun x hx => hD x (List.mem_cons_of_mem d hx)
    simp only [List.foldr_cons, ih h2, Nat.ofDigits_cons, digitChar_toNat h1]
    ring

theorem foldl_natChars (n : Nat) :
    (natChars n).foldl (fun a c => 10 * a + (c.toNat - 48)) 0 = n := by
  by_cases h : n = 0
  · subst h
    decide
  · rw [natChars_eq_digits h, List.foldl_reverse]
    have : (List.map digitChar (Nat.digits 10 n)).foldr
        (fun x y => 10 * y + (x.toNat - 48)) 0 =
        (Nat.digits 10 n).foldr (fun d y => 10 * y + ((digitChar d).toNat - 48)) 0 := by
      rw [List.foldr_map]
    rw [this, foldr_digitChar_ofDigits _ (fun d hd => Nat.digits_lt_base (by norm_num) hd),
      Nat.ofDigits_digits]

theorem parseNatNum_natChars (n : Nat) (rest : List Char) (h : headNotDigit rest = true) :
    parseNatNum (natChars n ++ rest) = some (n, rest) := by
  have hr : ∀ c t, rest = c :: t → Char.isDigit c = false := by
    rintro c t rfl
    simpa [headNotDigit] using h
  have tw := takeWhile_all_append rest (natChars_all_digit n) hr
  rw [parseNatNum]
  simp only [tw.1, tw.2]
  rw [if_neg (by simp [List.isEmpty_iff, natChars_ne_nil n])]
  rw [foldl_natChars]

theorem unhex_hexChar {m : Nat} (h : m < 16) : unhex (hexChar m) = some m := by
  interval_cases m <;> decide

theorem unhex_zero : unhex '0' = some 0 := by decide

theorem parseStrChars_escAll : ∀ (l rest : List Char),
    parseStrChars (escAll l ++ '"' :: rest) = some (l, rest) := by
  intro l
  induction l with
  | nil =>
    intro rest
    rw [escAll, List.nil_append, parseStrChars.eq_def]
    simp +decide
  | cons c t ih =>
    intro rest
    rw [escAll, List.append_assoc]
    rw [escChar]
    split_ifs with h1 h2 h3 h4 h5 h6 h7 h8
    · subst h1
      rw [List.cons_append, List.cons_append, List.nil_append, parseStrChars.eq_def]
      simp +decide [ih]
    · subst h2
      rw [List.cons_append, List.cons_append, List.nil_append, parseStrChars.eq_def]
      simp +decide [ih]
    · have hc : c = Char.ofNat 8 := by
        rw [← Char.ofNat_toNat c, h3]
      subst hc
      rw [List.cons_append, List.cons_append, List.nil_append, parseStrChars.eq_def]
      simp +decide [ih]
    · have hc : c = '\t' := by
        rw [← Char.ofNat_toNat c, h4]
      subst hc
      rw [List.cons_append, List.cons_append, List.nil_append, parseStrChars.eq_def]
      simp +decide [ih]
    · have hc : c = '\n' := by
        rw [← Char.ofNat_toNat c, h5]
      subst hc
      rw [List.cons_append, List.cons_append, List.nil_append, parseStrChars.eq_def]
      simp +decide [ih]
    · have hc : c = Char.ofNat 12 := by
        rw [← Char.ofNat_toNat c, h6]
      subst hc
      rw [List.cons_append, List.cons_append, List.nil_append, parseStrChars.eq_def]
      simp +decide [ih]
    · have hc : c = '\r' := by
        rw [← Char.ofNat_toNat c, h7]
      subst hc
      rw [List.cons_append, List.cons_append, List.nil_append, parseStrChars.eq_def]
      simp +decide [ih]
    · have hhi : c.toNat / 16 < 16 := by omega
      have hlo : c.toNat % 16 < 16 := by omega
      simp only [List.cons_append, List.nil_append]
      rw [parseStrChars.eq_def]
      simp +decide [unhex_zero, unhex_hexChar hhi, unhex_hexChar hlo, ih]
      rw [show c.toNat / 16 * 16 + c.toNat % 16 = c.toNat from by omega, Char.ofNat_toNat]
    · simp only [List.cons_append, List.nil_append]
      rw [parseStrChars.eq_def]
      simp +decide [h1, h2, h8, ih]

theorem digit_ne_lit {c : Char} (h : c.isDigit = true) (d : Char) (hd : d.isDigit = false) :
    c ≠ d := by
  intro he
  rw [he, hd] at h
  exact Bool.noConfusion h

theorem digit_not_ws {c : Char} (h : c.isDigit = true) : isWsC c = false := by
  have h1 : c ≠ ' ' := digit_ne_lit h ' ' (by decide)
  have h2 : c ≠ '\n' := digit_ne_lit h '\n' (by decide)
  have h3 : c ≠ '\t' := digit_ne_lit h '\t' (by decide)
  have h4 : c ≠ '\r' := digit_ne_lit h '\r' (by decide)
  simp [isWsC, h1, h2, h3, h4]

theorem intChars_head (n : Int) :
    ∃ c t, intChars n = c :: t ∧ (c = '-' ∨ c.isDigit = true) := by
  rw [intChars]
  split_ifs with h
  · exact ⟨'-', natChars n.natAbs, rfl, Or.inl rfl⟩
  · obtain ⟨c, t, hct⟩ := List.exists_cons_of_ne_nil (natChars_ne_nil n.toNat)
    refine ⟨c, t, hct, Or.inr ?_⟩
    have hall := natChars_all_digit n.toNat
    rw [hct] at hall
    simp only [List.all_cons, Bool.and_eq_true] at hall
    exact hall.1

theorem skipWs_idem (l : List Char) : skipWs (skipWs l) = skipWs l := by
  induction l with
  | nil => rfl
  | cons c t ih =>
    by_cases h : isWsC c = true
    · rw [skipWs_ws t h]
      exact ih
    · rw [skipWs_not t (by simpa using h), skipWs_not t (by simpa using h)]

theorem parseVal_ws_congr (fuel : Nat) (cs cs' : List Char) (h : skipWs cs = skipWs cs') :
    parseVal fuel cs = parseVal fuel cs' := by
  cases fuel with
  | zero => rfl
  | succ f => simp only [parseVal, h]

theorem headNotDigit_cons {c : Char} (l : List Char) (h : c.isDigit = false) :
    headNotDigit (c :: l) = true := by
  simp [headNotDigit, h]

theorem headNotDigit_emitArrRest (xs : JsonList) (d : Nat) (l : List Char) :
    headNotDigit (emitArrRest xs d ++ '\n' :: l) = true := by
  cases xs with
  | nil => simp [emitArrRest, headNotDigit]
  | cons x t => simp [emitArrRest, headNotDigit]

theorem headNotDigit_emitFldRest (fs : JsonFields) (d : Nat) (l : List Char) :
    headNotDigit (emitFldRest fs d ++ '\n' :: l) = true := by
  cases fs with
  | nil => simp [emitFldRest, headNotDigit]
  | cons k v t => simp [emitFldRest, headNotDigit]

theorem emit_head (j : Json) (d : Nat) :
    ∃ c t, emit j d = c :: t ∧ isWsC c = false ∧ c ≠ ']' ∧ c ≠ rbrace ∧ c ≠ ',' := by
  cases j with
  | null => exact ⟨'n', _, rfl, by decide, by decide, by decide, by decide⟩
  | bool b =>
    cases b with
    | false => exact ⟨'f', _, rfl, by decide, by decide, by decide, by decide⟩
    | true => exact ⟨'t', _, rfl, by decide, by decide, by decide, by decide⟩
  | num n =>
    obtain ⟨c, t, hct, hc⟩ := intChars_head n
    refine ⟨c, t, by rw [emit, hct], ?_, ?_, ?_, ?_⟩
    · rcases hc with rfl | hd
      · decide
      · exact digit_not_ws hd
    · rcases hc with rfl | hd
      · decide
      · exact digit_ne_lit hd ']' (by decide)
    · rcases hc with rfl | hd
      · decide
      · exact digit_ne_lit hd rbrace (by decide)
    · rcases hc with rfl | hd
      · decide
      · exact digit_ne_lit hd ',' (by decide)
  | str s => exact ⟨'"', _, rfl, by decide, by decide, by decide, by decide⟩
  | arr xs =>
    cases xs with
    | nil => exact ⟨'[', _, rfl, by decide, by decide, by decide, by decide⟩
    | cons x t => exact ⟨'[', _, rfl, by decide, by decide, by decide, by decide⟩
  | obj fs =>
    cases fs with
    | nil => exact ⟨lbrace, _, rfl, by decide, by decide, by decide, by decide⟩
    | cons k v t => exact ⟨lbrace, _, rfl, by decide, by decide, by decide, by decide⟩

theorem parseVal_intChars (fuel : Nat) (n : Int) (rest : List Char)
    (h : headNotDigit rest = true) :
    parseVal (fuel + 1) (intChars n ++ rest) = some (Json.num n, rest) := by
  by_cases hn : n < 0
  · rw [intChars, if_pos hn, List.cons_append, parseVal]
    rw [skipWs_not _ (by decide)]
    simp +decide [parseNatNum_natChars _ _ h]
    rw [Int.abs_eq_natAbs]
    omega
  · obtain ⟨c, t, hct⟩ := List.exists_cons_of_ne_nil (natChars_ne_nil n.toNat)
    have hall := natChars_all_digit n.toNat
    rw [hct] at hall
    simp only [List.all_cons, Bool.and_eq_true] at hall
    have hd : c.isDigit = true := hall.1
    rw [intChars, if_neg hn, hct, List.cons_append, parseVal]
    rw [skipWs_not _ (digit_not_ws hd)]
    simp +decide [digit_ne_lit hd '"' (by decide), digit_ne_lit hd '[' (by decide),
      digit_ne_lit hd lbrace (by decide), digit_ne_lit hd 'n' (by decide),
      digit_ne_lit hd 't' (by decide), digit_ne_lit hd 'f' (by decide),
      digit_ne_lit hd '-' (by decide), hd,
      show c :: (t ++ rest) = natChars n.toNat ++ rest from by rw [hct]; rfl,
      parseNatNum_natChars _ _ h]
    omega

theorem sizeJ_pos (j : Json) : 1 ≤ sizeJ j := by
  cases j <;> simp [sizeJ]

theorem sizeL_pos (xs : JsonList) : 1 ≤ sizeL xs := by
  cases xs with
  | nil => simp [sizeL]
  | cons x t =>
    simp only [sizeL]
    omega

theorem sizeF_pos (fs : JsonFields) : 1 ≤ sizeF fs := by
  cases fs with
  | nil => simp [sizeF]
  | cons k v t =>
    simp only [sizeF]
    omega

theorem parse_emit_all : ∀ fuel : Nat,
    (∀ (j : Json) (d : Nat) (rest : List Char), sizeJ j ≤ fuel → headNotDigit rest = true →
      parseVal fuel (emit j d ++ rest) = some (j, rest)) ∧
    (∀ (xs : JsonList) (d : Nat) (rest : List Char), sizeL xs ≤ fuel →
      parseArrRest fuel (emitArrRest xs (d + 1) ++ '\n' :: (indentC d ++ ']' :: rest)) =
        some (xs, rest)) ∧
    (∀ (fs : JsonFields) (d : Nat) (rest : List Char), sizeF fs ≤ fuel →
      parseObjRest fuel (emitFldRest fs (d + 1) ++ '\n' :: (indentC d ++ rbrace :: rest)) =
        some (fs, rest)) := by
  intro fuel
  induction fuel using Nat.strong_induction_on with
  | _ fuel IH =>
    refine ⟨?_, ?_, ?_⟩
    · intro j d rest hsize hrest
      have hp := sizeJ_pos j
      obtain ⟨f, rfl⟩ : ∃ f, fuel = f + 1 := ⟨fuel - 1, by omega⟩
      cases j with
      | null =>
        simp only [emit, List.cons_append, List.nil_append]
        rw [parseVal]
        rw [skipWs_not _ (by decide : isWsC 'n' = false)]
        simp +decide
      | bool b =>
        cases b with
        | true =>
          simp only [emit, List.cons_append, List.nil_append]
          rw [parseVal]
          rw [skipWs_not _ (by decide : isWsC 't' = false)]
          simp +decide
        | false =>
          simp only [emit, List.cons_append, List.nil_append]
          rw [parseVal]
          rw [skipWs_not _ (by decide : isWsC 'f' = false)]
          simp +decide
      | num n =>
        simp only [emit]
        exact parseVal_intChars f n rest hrest
      | str s =>
        simp only [emit, quoteStr, List.cons_append, List.append_assoc, List.nil_append]
        rw [parseVal]
        rw [skipWs_not _ (by decide : isWsC '"' = false)]
        simp +decide [parseStrChars_escAll, strMkData]
      | arr xs =>
        cases xs with
        | nil =>
          simp only [sizeJ, sizeL] at hsize
          obtain ⟨g, rfl⟩ : ∃ g, f = g + 1 := ⟨f - 1, by omega⟩
          simp only [emit, List.cons_append, List.nil_append]
          rw [parseVal]
          rw [skipWs_not _ (by decide : isWsC '[' = false)]
          simp +decide [parseArrTop, skipWs_not _ (by decide : isWsC ']' = false)]
        | cons x xs =>
          simp only [sizeJ, sizeL] at hsize
          obtain ⟨g, rfl⟩ : ∃ g, f = g + 1 := ⟨f - 1, by omega⟩
          have hg : g < g + 1 + 1 := by omega
          obtain ⟨c0, t0, hct, hws, hne1, hne2, hne3⟩ := emit_head x (d + 1)
          have hx := (IH g hg).1 x (d + 1)
            (emitArrRest xs (d + 1) ++ '\n' :: (indentC d ++ ']' :: rest))
            (by omega) (headNotDigit_emitArrRest xs (d + 1) (indentC d ++ ']' :: rest))
          have hxs := ((IH g hg).2.1) xs d rest (by omega)
          rw [hct] at hx
          simp only [List.cons_append, List.append_assoc] at hx
          simp only [emit, List.cons_append, List.nil_append, List.append_assoc]
          rw [parseVal]
          rw [skipWs_not _ (by decide : isWsC '[' = false)]
          simp +decide [parseArrTop, skipWs_newline, skipWs_indent, hct, skipWs_not, hws,
            hne1, hx, hxs]
      | obj fs =>
        cases fs with
        | nil =>
          simp only [sizeJ, sizeF] at hsize
          obtain ⟨g, rfl⟩ : ∃ g, f = g + 1 := ⟨f - 1, by omega⟩
          simp only [emit, List.cons_append, List.nil_append]
          rw [parseVal]
          rw [skipWs_not _ (by decide : isWsC lbrace = false)]
          simp +decide [parseObjTop, skipWs_not _ (by decide : isWsC rbrace = false)]
        | cons k v fs =>
          simp only [sizeJ, sizeF] at hsize
          obtain ⟨g, rfl⟩ : ∃ g, f = g + 1 := ⟨f - 1, by omega⟩
          have hg : g < g + 1 + 1 := by omega
          have hv := (IH g hg).1 v (d + 1)
            (emitFldRest fs (d + 1) ++ '\n' :: (indentC d ++ rbrace :: rest))
            (by omega) (headNotDigit_emitFldRest fs (d + 1) (indentC d ++ rbrace :: rest))
          have hfs := ((IH g hg).2.2) fs d rest (by omega)
          simp only [List.append_assoc] at hv
          have hcongr : parseVal g (' ' :: (emit v (d + 1) ++
              (emitFldRest fs (d + 1) ++ '\n' :: (indentC d ++ rbrace :: rest)))) =
              parseVal g (emit v (d + 1) ++
              (emitFldRest fs (d + 1) ++ '\n' :: (indentC d ++ rbrace :: rest))) :=
            parseVal_ws_congr g _ _ (skipWs_ws _ (by decide))
          simp only [emit, quoteStr, List.cons_append, List.nil_append, List.append_assoc]
          rw [parseVal]
          rw [skipWs_not _ (by decide : isWsC lbrace = false)]
          simp +decide [parseObjTop, skipWs_newline, skipWs_indent,
            skipWs_not _ (by decide : isWsC '"' = false),
            skipWs_not _ (by decide : isWsC ':' = false),
            parseStrChars_escAll, strMkData, hcongr, hv, hfs]
    · intro xs d rest hsize
      have hp := sizeL_pos xs
      obtain ⟨f, rfl⟩ : ∃ f, fuel = f + 1 := ⟨fuel - 1, by omega⟩
      cases xs with
      | nil =>
        simp only [emitArrRest, List.nil_append]
        rw [parseArrRest]
        rw [skipWs_newline, skipWs_indent]
        rw [skipWs_not _ (by decide : isWsC ']' = false)]
        simp +decide
      | cons x xs =>
        simp only [sizeL] at hsize
        have hf : f < f + 1 := by omega
        have hx := (IH f hf).1 x (d + 1)
          (emitArrRest xs (d + 1) ++ '\n' :: (indentC d ++ ']' :: rest))
          (by omega) (headNotDigit_emitArrRest xs (d + 1) (indentC d ++ ']' :: rest))
        have hxs := ((IH f hf).2.1) xs d rest (by omega)
        simp only [List.append_assoc] at hx
        have hcongr : parseVal f ('\n' :: (indentC (d + 1) ++ (emit x (d + 1) ++
            (emitArrRest xs (d + 1) ++ '\n' :: (indentC d ++ ']' :: rest))))) =
            parseVal f (emit x (d + 1) ++
            (emitArrRest xs (d + 1) ++ '\n' :: (indentC d ++ ']' :: rest))) :=
          parseVal_ws_congr f _ _ (by rw [skipWs_newline, skipWs_indent])
        simp only [emitArrRest, List.cons_append, List.nil_append, List.append_assoc]
        rw [parseArrRest]
        rw [skipWs_not _ (by decide : isWsC ',' = false)]
        simp +decide [hcongr, hx, hxs]
    · intro fs d rest hsize
      have hp := sizeF_pos fs
      obtain ⟨f, rfl⟩ : ∃ f, fuel = f + 1 := ⟨fuel - 1, by omega⟩
      cases fs with
      | nil =>
        simp only [emitFldRest, List.nil_append]
        rw [parseObjRest]
        rw [skipWs_newline, skipWs_indent]
        rw [skipWs_not _ (by decide : isWsC rbrace = false)]
        simp +decide
      | cons k v fs =>
        simp only [sizeF] at hsize
        have hf : f < f + 1 := by omega
        have hv := (IH f hf).1 v (d + 1)
          (emitFldRest fs (d + 1) ++ '\n' :: (indentC d ++ rbrace :: rest))
          (by omega) (headNotDigit_emitFldRest fs (d + 1) (indentC d ++ rbrace :: rest))
        have hfs := ((IH f hf).2.2) fs d rest (by omega)
        simp only [List.append_assoc] at hv
        have hcongr : parseVal f (' ' :: (emit v (d + 1) ++
            (emitFldRest fs (d + 1) ++ '\n' :: (indentC d ++ rbrace :: rest)))) =
            parseVal f (emit v (d + 1) ++
            (emitFldRest fs (d + 1) ++ '\n' :: (indentC d ++ rbrace :: rest))) :=
          parseVal_ws_congr f _ _ (skipWs_ws _ (by decide))
        simp only [emitFldRest, quoteStr, List.cons_append, List.nil_append, List.append_assoc]
        rw [parseObjRest]
        rw [skipWs_not _ (by decide : isWsC ',' = false)]
        simp +decide [skipWs_newline, skipWs_indent,
          skipWs_not _ (by decide : isWsC '"' = false),
          skipWs_not _ (by decide : isWsC ':' = false),
          parseStrChars_escAll, strMkData, hcongr, hv, hfs]

mutual
theorem sizeJ_le_emit : ∀ (j : Json) (d : Nat), sizeJ j ≤ (emit j d).length
  | .null, _ => by simp [sizeJ, emit]
  | .bool b, _ => by cases b <;> simp [sizeJ, emit]
  | .num n, d => by
    obtain ⟨c, t, hct, _⟩ := intChars_head n
    simp [sizeJ, emit, hct]
  | .str s, _ => by simp [sizeJ, emit, quoteStr]
  | .arr .nil, _ => by simp [sizeJ, sizeL, emit]
  | .arr (.cons x xs), d => by
    have h1 := sizeJ_le_emit x (d + 1)
    have h2 := sizeL_le_emitArrRest xs (d + 1)
    simp only [sizeJ, sizeL, emit, List.length_append, List.length_cons]
    omega
  | .obj .nil, _ => by simp [sizeJ, sizeF, emit]
  | .obj (.cons k v fs), d => by
    have h1 := sizeJ_le_emit v (d + 1)
    have h2 := sizeF_le_emitFldRest fs (d + 1)
    simp only [sizeJ, sizeF, emit, quoteStr, List.length_append, List.length_cons]
    omega
theorem sizeL_le_emitArrRest : ∀ (xs : JsonList) (d : Nat),
    sizeL xs ≤ (emitArrRest xs d).length + 1
  | .nil, _ => by simp [sizeL, emitArrRest]
  | .cons x xs, d => by
    have h1 := sizeJ_le_emit x d
    have h2 := sizeL_le_emitArrRest xs d
    simp only [sizeL, emitArrRest, List.length_append, List.length_cons]
    omega
theorem sizeF_le_emitFldRest : ∀ (fs : JsonFields) (d : Nat),
    sizeF fs ≤ (emitFldRest fs d).length + 1
  | .nil, _ => by simp [sizeF, emitFldRest]
  | .cons k v fs, d => by
    have h1 := sizeJ_le_emit v d
    have h2 := sizeF_le_emitFldRest fs d
    simp only [sizeF, emitFldRest, quoteStr, List.length_append, List.length_cons]
    omega
end

theorem parseJson_stringify (j : Json) : parseJson (stringifyPretty2 j) = some j := by
  rw [parseJson, stringifyPretty2]
  have h := (parse_emit_all ((emit j 0).length + 1)).1 j 0 []
    (le_trans (sizeJ_le_emit j 0) (by omega)) rfl
  rw [List.append_nil] at h
  simp only [String.length, String.data] at h ⊢
  rw [h]
  rfl

theorem all_ne_iff_not_mem (s : List String) (u : String) :
    (s.all fun x => !(x == u)) = true ↔ u ∉ s := by
  simp only [List.all_eq_true, Bool.not_eq_true', beq_eq_false_iff_ne, ne_eq]
  constructor
  · intro h hu
    exact h u hu rfl
  · intro h x hx he
    exact h (he ▸ hx)

theorem firstWinsAux_congr : ∀ (rs : List Recipe) (s1 s2 : List String),
    (∀ a, a ∈ s1 ↔ a ∈ s2) → firstWinsAux s1 rs = firstWinsAux s2 rs := by
  intro rs
  induction rs with
  | nil =>
    intro s1 s2 _
    rfl
  | cons r rs ih =>
    intro s1 s2 h
    have hall : (s1.all fun s => !(s == r.uid)) = (s2.all fun s => !(s == r.uid)) := by
      rw [Bool.eq_iff_iff, all_ne_iff_not_mem, all_ne_iff_not_mem]
      exact not_congr (h r.uid)
    rw [firstWinsAux, firstWinsAux, hall]
    by_cases hc : (validRecipe r && s2.all fun s => !(s == r.uid)) = true
    · rw [if_pos hc, if_pos hc, ih (r.uid :: s1) (r.uid :: s2)]
      intro a
      simp only [List.mem_cons]
      exact or_congr Iff.rfl (h a)
    · rw [if_neg hc, if_neg hc]
      exact ih s1 s2 h

theorem all_uid_map (ds : List Recipe) (u : String) :
    ((ds.map fun x => x.uid).all fun s => !(s == u)) = ds.all fun x => !(x.uid == u) := by
  induction ds with
  | nil => rfl
  | cons d ds ihd => simp [List.all_cons, ihd]

theorem bulkInsert_firstWins : ∀ (rs docs : List Recipe),
    bulkInsert docs rs = docs ++ firstWinsAux (docs.map fun r => r.uid) rs := by
  intro rs
  induction rs with
  | nil =>
    intro docs
    simp [bulkInsert, firstWinsAux]
  | cons r rs ih =>
    intro docs
    have hstep : bulkInsert docs (r :: rs) = bulkInsert (insertRecipe docs r) rs := by
      simp [bulkInsert]
    have hmap := all_uid_map docs r.uid
    rw [hstep, ih, insertRecipe, firstWinsAux, hmap]
    by_cases hc : (validRecipe r && docs.all fun x => !(x.uid == r.uid)) = true
    · rw [if_pos hc, if_pos hc]
      rw [List.map_append, List.map_cons, List.map_nil]
      rw [firstWinsAux_congr rs ((docs.map fun x => x.uid) ++ [r.uid])
        (r.uid :: docs.map fun x => x.uid)
        (by
          intro a
          simp only [List.mem_append, List.mem_cons, List.mem_singleton]
          tauto)]
      simp
    · rw [if_neg hc, if_neg hc]

theorem firstWinsAux_length : ∀ (rs : List Recipe) (seen : List String),
    (firstWinsAux seen rs).length =
      (((rs.filter validRecipe).map fun r => r.uid).toFinset \ seen.toFinset).card := by
  intro rs
  induction rs with
  | nil =>
    intro seen
    simp [firstWinsAux]
  | cons r rs ih =>
    intro seen
    rw [firstWinsAux]
    by_cases hv : validRecipe r = true
    · by_cases hm : r.uid ∈ seen
      · have hall : (seen.all fun s => !(s == r.uid)) = false := by
          have : ¬(seen.all fun s => !(s == r.uid)) = true :=
            fun hall => (all_ne_iff_not_mem _ _).mp hall hm
          simpa using this
        rw [if_neg (by simp [hall])]
        rw [ih]
        rw [List.filter_cons_of_pos hv, List.map_cons, List.toFinset_cons,
          Finset.insert_sdiff_of_mem _ (by simpa using hm)]
      · have hall : (seen.all fun s => !(s == r.uid)) = true :=
          (all_ne_iff_not_mem _ _).mpr hm
        rw [if_pos (by simp [hv, hall])]
        simp only [List.length_cons]
        rw [ih (r.uid :: seen)]
        rw [List.filter_cons_of_pos hv, List.map_cons, List.toFinset_cons, List.toFinset_cons]
        have hmf : r.uid ∉ seen.toFinset := by simpa using hm
        have h1 : insert r.uid ((rs.filter validRecipe).map fun x => x.uid).toFinset \
            seen.toFinset =
            insert r.uid (((rs.filter validRecipe).map fun x => x.uid).toFinset \
              seen.toFinset) := by
          ext a
          simp only [Finset.mem_sdiff, Finset.mem_insert]
          constructor
          · rintro ⟨hx | hx, hns⟩
            · exact Or.inl hx
            · exact Or.inr ⟨hx, hns⟩
          · rintro (rfl | ⟨hx, hns⟩)
            · exact ⟨Or.inl rfl, hmf⟩
            · exact ⟨Or.inr hx, hns⟩
        rw [h1]
        set S := ((rs.filter validRecipe).map fun x => x.uid).toFinset \ seen.toFinset with hS
        have h2 : insert r.uid S = insert r.uid (S.erase r.uid) := by
          ext a
          by_cases ha : a = r.uid <;> simp [ha]
        rw [h2, Finset.card_insert_of_not_mem (Finset.not_mem_erase _ _)]
        rw [hS, ← Finset.sdiff_insert]
    · rw [if_neg (by simp [hv])]
      rw [ih, List.filter_cons_of_neg hv]

theorem firstWinsAux_find? : ∀ (rs : List Recipe) (seen : List String) (u : String),
    u ∉ seen →
    (firstWinsAux seen rs).find? (fun r => r.uid == u) =
      (rs.filter validRecipe).find? (fun r => r.uid == u) := by
  intro rs
  induction rs with
  | nil =>
    intro seen u _
    simp [firstWinsAux]
  | cons r rs ih =>
    intro seen u hu
    rw [firstWinsAux]
    by_cases hv : validRecipe r = true
    · by_cases hm : r.uid ∈ seen
      · have hall : ¬(seen.all fun s => !(s == r.uid)) = true :=
          fun hall => (all_ne_iff_not_mem _ _).mp hall hm
        rw [if_neg (by simp [Bool.not_eq_true] at hall; simp [hall])]
        rw [ih seen u hu, List.filter_cons_of_pos hv]
        have hru : (r.uid == u) = false := by
          have : r.uid ≠ u := fun he => hu (he ▸ hm)
          simpa using this
        rw [List.find?_cons_of_neg _ (by simp [hru])]
      · have hall : (seen.all fun s => !(s == r.uid)) = true :=
          (all_ne_iff_not_mem _ _).mpr hm
        rw [if_pos (by simp [hv, hall])]
        rw [List.filter_cons_of_pos hv]
        by_cases hru : (r.uid == u) = true
        · rw [List.find?_cons_of_pos _ (by simpa using hru),
            List.find?_cons_of_pos _ (by simpa using hru)]
        · rw [List.find?_cons_of_neg _ (by simpa using hru),
            List.find?_cons_of_neg _ (by simpa using hru)]
          refine ih (r.uid :: seen) u ?_
          simp only [List.mem_cons]
          rintro (he | hx)
          · rw [he] at hru
            simp at hru
          · exact hu hx
    · rw [if_neg (by simp [hv])]
      rw [ih seen u hu, List.filter_cons_of_neg hv]

theorem firstWinsAux_nil_of_seen : ∀ (rs : List Recipe) (seen : List String),
    (∀ r ∈ rs, validRecipe r = true → r.uid ∈ seen) → firstWinsAux seen rs = [] := by
  intro rs
  induction rs with
  | nil =>
    intro seen _
    rfl
  | cons r rs ih =>
    intro seen h
    rw [firstWinsAux]
    by_cases hv : validRecipe r = true
    · have hm : r.uid ∈ seen := h r (List.mem_cons_self r rs) hv
      have hall : ¬(seen.all fun s => !(s == r.uid)) = true :=
        fun hall => (all_ne_iff_not_mem _ _).mp hall hm
      rw [if_neg (by simp [Bool.not_eq_true] at hall; simp [hall])]
      exact ih seen (fun x hx hvx => h x (List.mem_cons_of_mem r hx) hvx)
    · rw [if_neg (by simp [hv])]
      exact ih seen (fun x hx hvx => h x (List.mem_cons_of_mem r hx) hvx)

theorem uid_mem_firstWinsAux : ∀ (rs : List Recipe) (seen : List String) (r : Recipe),
    r ∈ rs → validRecipe r = true →
    r.uid ∈ seen ∨ r.uid ∈ (firstWinsAux seen rs).map fun x => x.uid := by
  intro rs
  induction rs with
  | nil =>
    intro seen r hr
    exact absurd hr (List.not_mem_nil r)
  | cons a rs ih =>
    intro seen r hr hv
    rw [firstWinsAux]
    by_cases hc : (validRecipe a && seen.all fun s => !(s == a.uid)) = true
    · rw [if_pos hc]
      rcases List.mem_cons.mp hr with rfl | hr'
      · right
        simp
      · rcases ih (a.uid :: seen) r hr' hv with hseen | hmap
        · rcases List.mem_cons.mp hseen with he | hs
          · right
            simp [he]
          · exact Or.inl hs
        · right
          simp only [List.map_cons, List.mem_cons]
          exact Or.inr hmap
    · rw [if_neg hc]
      rcases List.mem_cons.mp hr with rfl | hr'
      · simp only [hv, Bool.true_and] at hc
        left
        by_contra hm
        exact hc ((all_ne_iff_not_mem _ _).mpr hm)
      · exact ih seen r hr' hv

theorem loadTimes_collection (rs : List Recipe) :
    ∀ n : Nat, loadTimes rs (n + 1) = RecipeStore.mk (some (firstWinsAux [] rs)) := by
  intro n
  induction n with
  | zero =>
    rw [loadTimes, loadTimes, RecipeStore.load]
    simp only [emptyStore, Option.getD_none]
    rw [bulkInsert_firstWins]
    simp
  | succ n ih =>
    rw [loadTimes, ih, RecipeStore.load]
    simp only [Option.getD_some]
    rw [bulkInsert_firstWins]
    rw [firstWinsAux_nil_of_seen rs ((firstWinsAux [] rs).map fun x => x.uid)
      (fun r hr hv => by
        rcases uid_mem_firstWinsAux rs [] r hr hv with hm | hm
        · exact absurd hm (List.not_mem_nil _)
        · exact hm)]
    simp

theorem strDataAppend (a b : String) : (a ++ b).data = a.data ++ b.data := by
  cases a
  cases b
  rfl

theorem strAppend_cancel {a b t : String} (h : a ++ t = b ++ t) : a = b := by
  have hd : a.data ++ t.data = b.data ++ t.data := by
    have := congrArg String.data h
    rwa [strDataAppend, strDataAppend] at this
  have := List.append_cancel_right hd
  cases a
  cases b
  exact congrArg String.mk this

theorem isPre_self_append : ∀ (l r : List Char), isPre l (l ++ r) = true := by
  intro l
  induction l with
  | nil =>
    intro r
    rfl
  | cons c t ih =>
    intro r
    simp [isPre, ih]

theorem hasSuf_append (u t : String) : hasSuf (u ++ t) t = true := by
  rw [hasSuf, strDataAppend, List.reverse_append]
  exact isPre_self_append _ _

theorem unpack_foldl_counts : ∀ (entries : List ArchiveEntry) (st : UnpackState),
    (entries.foldl unpackStep st).errorCount =
      st.errorCount + (entries.filter entryFails).length ∧
    (entries.foldl unpackStep st).processedCount =
      st.processedCount + (entries.filter entrySucceeds).length := by
  intro entries
  induction entries with
  | nil =>
    intro st
    simp
  | cons e es ih =>
    intro st
    rw [List.foldl_cons]
    by_cases hrel : entryRelevant e = true
    · cases hne : normalizeEntry e with
      | none =>
        have hstep : unpackStep st e =
            UnpackState.mk st.processedCount (st.errorCount + 1) st.files := by
          simp [unpackStep, hrel, hne]
        have hf : entryFails e = true := by simp [entryFails, hrel, hne]
        have hs : entrySucceeds e = false := by simp [entrySucceeds, hrel, hne]
        obtain ⟨h1, h2⟩ := ih (unpackStep st e)
        refine ⟨?_, ?_⟩
        · rw [h1, hstep, List.filter_cons_of_pos hf]
          simp only [List.length_cons]
          omega
        · rw [h2, hstep, List.filter_cons_of_neg (by simp [hs])]
      | some p =>
        have hstep : unpackStep st e =
            UnpackState.mk (st.processedCount + 1) st.errorCount
              (writeOut st.files (p.1 ++ ".json") (stringifyPretty2 p.2)) := by
          simp [unpackStep, hrel, hne]
        have hf : entryFails e = false := by simp [entryFails, hrel, hne]
        have hs : entrySucceeds e = true := by simp [entrySucceeds, hrel, hne]
        obtain ⟨h1, h2⟩ := ih (unpackStep st e)
        refine ⟨?_, ?_⟩
        · rw [h1, hstep, List.filter_cons_of_neg (by simp [hf])]
        · rw [h2, hstep, List.filter_cons_of_pos hs]
          simp only [List.length_cons]
          omega
    · have hstep : unpackStep st e = st := by
        simp [unpackStep, hrel]
      have hf : entryFails e = false := by simp [entryFails, hrel]
      have hs : entrySucceeds e = false := by simp [entrySucceeds, hrel]
      obtain ⟨h1, h2⟩ := ih (unpackStep st e)
      refine ⟨?_, ?_⟩
      · rw [h1, hstep, List.filter_cons_of_neg (by simp [hf])]
      · rw [h2, hstep, List.filter_cons_of_neg (by simp [hs])]

theorem lookup_writeOut_self (files : List (String × String)) (nm text : String) :
    List.lookup nm (writeOut files nm text) = some text := by
  rw [writeOut]
  induction files with
  | nil => simp [List.lookup]
  | cons f fs ih =>
    by_cases hf : (f.1 == nm) = true
    · rw [List.filter_cons_of_neg (by simp [hf])]
      exact ih
    · rw [List.filter_cons_of_pos (by simp [hf])]
      cases f with
      | mk a v =>
        simp only at hf
        have hna : (nm == a) = false := by
          simp only [beq_eq_false_iff_ne, ne_eq]
          intro he
          exact hf (by simp [he])
        rw [List.cons_append]
        simp [List.lookup, hna, ih]

theorem lookup_writeOut_other (files : List (String × String)) (nm text k : String)
    (h : k ≠ nm) :
    List.lookup k (writeOut files nm text) = List.lookup k files := by
  rw [writeOut]
  induction files with
  | nil =>
    have hk : (k == nm) = false := by simpa using h
    simp [List.lookup, hk]
  | cons f fs ih =>
    cases f with
    | mk a v =>
      by_cases hf : ((a, v).1 == nm) = true
      · rw [List.filter_cons_of_neg (by simp [hf])]
        simp only at hf
        have ha : (k == a) = false := by
          have hanm : a = nm := by simpa using hf
          subst hanm
          simpa using h
        rw [ih]
        simp [List.lookup, ha]
      · rw [List.filter_cons_of_pos (by simp [hf]), List.cons_append]
        by_cases hk : (k == a) = true
        · simp [List.lookup, hk]
        · simp [List.lookup, hk, ih]

theorem unpack_files_lookup : ∀ (entries : List ArchiveEntry) (u : String),
    List.lookup (u ++ ".json") (UnpackAction.onExecuteAsync entries).files =
      (((successRecords entries).filter fun p => p.1 == u).getLast?).map
        (fun p => stringifyPretty2 p.2) := by
  intro entries
  induction entries using List.reverseRecOn with
  | nil =>
    intro u
    simp [UnpackAction.onExecuteAsync, successRecords, List.lookup]
  | append_singleton es e ih =>
    intro u
    have hfold : UnpackAction.onExecuteAsync (es ++ [e]) =
        unpackStep (UnpackAction.onExecuteAsync es) e := by
      simp [UnpackAction.onExecuteAsync, List.foldl_append]
    have hsucc : successRecords (es ++ [e]) = successRecords es ++ successRecords [e] := by
      simp [successRecords, List.filterMap_append]
    rw [hfold, hsucc]
    by_cases hrel : entryRelevant e = true
    · cases hne : normalizeEntry e with
      | none =>
        have h1 : successRecords [e] = [] := by simp [successRecords, hrel, hne]
        have h2 : (unpackStep (UnpackAction.onExecuteAsync es) e).files =
            (UnpackAction.onExecuteAsync es).files := by
          simp [unpackStep, hrel, hne]
        rw [h1, List.append_nil, h2]
        exact ih u
      | some p =>
        obtain ⟨w, j⟩ := p
        have h1 : successRecords [e] = [(w, j)] := by simp [successRecords, hrel, hne]
        have h2 : (unpackStep (UnpackAction.onExecuteAsync es) e).files =
            writeOut (UnpackAction.onExecuteAsync es).files (w ++ ".json")
              (stringifyPretty2 j) := by
          simp [unpackStep, hrel, hne]
        rw [h1, h2, List.filter_append]
        by_cases hu : (w == u) = true
        · have hueq : w = u := by simpa using hu
          subst hueq
          rw [lookup_writeOut_self]
          rw [List.filter_cons_of_pos (by simp), List.filter_nil]
          rw [List.getLast?_concat]
          rfl
        · have hwne : w ≠ u := by simpa using hu
          have hkey : u ++ ".json" ≠ w ++ ".json" :=
            fun he => hwne (strAppend_cancel he.symm)
          rw [lookup_writeOut_other _ _ _ _ hkey]
          rw [List.filter_cons_of_neg (by simpa using hu), List.filter_nil, List.append_nil]
          exact ih u
    · have h1 : successRecords [e] = [] := by simp [successRecords, hrel]
      have h2 : unpackStep (UnpackAction.onExecuteAsync es) e =
          UnpackAction.onExecuteAsync es := by
        simp [unpackStep, hrel]
      rw [h1, List.append_nil, h2]
      exact ih u

/-- C1 counterexample: a loader output consisting of one record whose uid is
101 characters long has one distinct uid, but the store count after `load()`
is 0, because the record fails the schema validation (`maxLength: 100`)
that `load()` applies on insert — so the count does not equal the number of
distinct uids of the output, as the claim states it for every loader
output. -/
theorem C1_counterexample :
    RecipeStore.getCount (RecipeStore.load emptyStore [longUidRecipe]) ≠
      (([longUidRecipe].map fun r => r.uid).dedup).length := by
  decide

/-- C1 amended: for every loader output and any positive number of `load()`
calls against it, the store count equals the number of distinct uids among
the records of the output that pass schema validation, and `getByUid(uid)`
returns the first-encountered schema-valid record with that uid (first
write wins; later duplicates are dropped, not merged). -/
theorem C1_dedup_first_write_wins (rs : List Recipe) (n : Nat) :
    RecipeStore.getCount (loadTimes rs (n + 1)) =
      (((rs.filter validRecipe).map fun r => r.uid).dedup).length ∧
    ∀ u : String, RecipeStore.getByUid (loadTimes rs (n + 1)) u =
      (rs.filter validRecipe).find? fun r => r.uid == u := by
  rw [loadTimes_collection]
  constructor
  · simp only [RecipeStore.getCount]
    rw [firstWinsAux_length]
    simp [List.card_toFinset]
  · intro u
    simp only [RecipeStore.getByUid]
    exact firstWinsAux_find? rs [] u (List.not_mem_nil u)

/-- C2: for a store holding `docs`, a non-blank query and any requested
field list (defaulting to name, description, ingredients, notes when
omitted), `search` returns a stored record exactly when some requested
field of it is a string whose lowercased form contains the lowercased
query; non-string field values never produce a match. -/
theorem C2_search_iff (docs : List Recipe) (q : String) (fields : Option (List String))
    (r : Recipe) (hq : blankQuery q = false) (hr : r ∈ docs) :
    r ∈ RecipeStore.search (RecipeStore.mk (some docs)) q fields ↔
      ∃ f ∈ fields.getD ["name", "description", "ingredients", "notes"],
        fieldMatch r q f = true := by
  simp only [RecipeStore.search]
  rw [if_neg (by simp [hq])]
  rw [List.mem_filter]
  simp [hr, List.any_eq_true]

/-- C2 witness: the spec example — a record whose notes say freeze well is
returned by a default-field search for freeze. -/
theorem C2_search_iff_witness :
    soupRecipe ∈ RecipeStore.search (RecipeStore.mk (some [soupRecipe])) "freeze" none :=
  (C2_search_iff [soupRecipe] "freeze" none soupRecipe (by decide)
    (by decide)).mpr (by decide)

/-- C3 counterexample: with two stored records and limit 1, the list tool
reports count 1 — the length after truncation — not the full pre-truncation
record count 2 that the claim states. -/
theorem C3_counterexample :
    (ListRecipesTool.execute 1 twoRecipeStore).count ≠
      (RecipeStore.list twoRecipeStore).length := by
  decide

/-- C3 amended: for every store state and nonnegative limit (default 200),
the list tool returns the reduced projection of at most limit records, and
its count equals the number of records actually returned after truncation
— the minimum of the stored total and the limit — not the pre-truncation
total. -/
theorem C3_list_count_post_truncation (st : RecipeStore) (limit : Int) (h : 0 ≤ limit) :
    (ListRecipesTool.execute limit st).recipes =
      ((RecipeStore.list st).map toShortRecipe).take limit.toNat ∧
    (ListRecipesTool.execute limit st).recipes.length ≤ limit.toNat ∧
    (ListRecipesTool.execute limit st).count =
      min (RecipeStore.list st).length limit.toNat := by
  rw [ListRecipesTool.execute]
  simp only [jsSliceTo]
  rw [if_neg (by omega)]
  refine ⟨rfl, ?_, ?_⟩
  · simp [List.length_take]
  · simp [List.length_take, Nat.min_comm]

/-- C3 witness: the amended statement at limit 1 on the two-record store. -/
theorem C3_list_count_post_truncation_witness :
    (ListRecipesTool.execute 1 twoRecipeStore).count =
      min (RecipeStore.list twoRecipeStore).length (1 : Int).toNat :=
  (C3_list_count_post_truncation twoRecipeStore 1 (by decide)).2.2

/-- C4: the empty query and the all-whitespace query, with any or no fields
argument, return exactly the record set of `list()`. -/
theorem C4_blank_query_equals_list (st : RecipeStore) (fields : Option (List String)) :
    RecipeStore.search st "" fields = RecipeStore.list st ∧
    RecipeStore.search st "   " fields = RecipeStore.list st := by
  cases st with
  | mk c =>
    cases c with
    | none => exact ⟨rfl, rfl⟩
    | some docs =>
      constructor
      · simp only [RecipeStore.search, RecipeStore.list]
        rw [if_pos (by decide)]
      · simp only [RecipeStore.search, RecipeStore.list]
        rw [if_pos (by decide)]

/-- C5: the unpack loop counts one error per failing relevant entry and one
processed record per successful one, never aborting — the counters over any
entry list equal the counts of failing and succeeding entries — and on the
concrete archive of one corrupt entry followed by one valid entry it ends
with processed 1, error 1, and an output file only for the valid entry. -/
theorem C5_per_entry_failure_isolation :
    (∀ entries : List ArchiveEntry,
      (UnpackAction.onExecuteAsync entries).errorCount =
        (entries.filter entryFails).length ∧
      (UnpackAction.onExecuteAsync entries).processedCount =
        (entries.filter entrySucceeds).length) ∧
    UnpackAction.onExecuteAsync [corruptEntry, validEntry] =
      UnpackState.mk 1 1 [("A.json", stringifyPretty2 demoJson)] := by
  constructor
  · intro entries
    have h := unpack_foldl_counts entries (UnpackState.mk 0 0 [])
    simpa [UnpackAction.onExecuteAsync] using h
  · rfl

/-- C6: a record written by the unpacker as pretty-printed JSON under
`<uid>.json` and read back by the filesystem loader reproduces the original
document exactly — `JSON.parse` after `JSON.stringify(x, null, 2)` is the
identity on the record. -/
theorem C6_roundtrip (j : Json) (u : String) :
    FileSystemRecipeLoader.load (some [(u ++ ".json", some (stringifyPretty2 j))]) = [j] := by
  rw [FileSystemRecipeLoader.load]
  rw [List.filter_cons_of_pos (by simpa using hasSuf_append u ".json"), List.filter_nil]
  simp [parseJson_stringify]

/-- C7: after an unpack run, the output file `<uid>.json` holds the
pretty-printed two-space-indented JSON of the last successfully normalized
entry with that uid (each write overwrites any earlier file of the same
name, so the last entry with a given uid wins — the opposite of the store
dedup), and no file of that name exists when no entry with the uid
succeeded. -/
theorem C7_unpack_last_write_wins (entries : List ArchiveEntry) (u : String) :
    List.lookup (u ++ ".json") (UnpackAction.onExecuteAsync entries).files =
      (((successRecords entries).filter fun p => p.1 == u).getLast?).map
        (fun p => stringifyPretty2 p.2) :=
  unpack_files_lookup entries u

/-- C8: the filesystem loader returns the empty list for a missing
directory, and inside an existing directory a `.json` file that fails to
read or to parse is skipped while the remaining files still load — the
result is the same as if the failing file were absent. -/
theorem C8_loader_skips_failures :
    FileSystemRecipeLoader.load none = [] ∧
    ∀ (pre post : List (String × Option String)) (bad : String × Option String),
      hasSuf bad.1 ".json" = true →
      (bad.2 = none ∨ ∃ t, bad.2 = some t ∧ parseJson t = none) →
      FileSystemRecipeLoader.load (some (pre ++ bad :: post)) =
        FileSystemRecipeLoader.load (some (pre ++ post)) := by
  constructor
  · rfl
  · intro pre post bad hsuf hbad
    rw [FileSystemRecipeLoader.load, FileSystemRecipeLoader.load]
    rw [List.filter_append, List.filter_append,
      List.filter_cons_of_pos (by simpa using hsuf)]
    rw [List.filterMap_append, List.filterMap_append]
    congr 1
    rcases hbad with hb | ⟨t, hb, hp⟩
    · simp [List.filterMap_cons, hb]
    · simp [List.filterMap_cons, hb, hp]

/-- C8 witness: a directory with one valid file and one malformed file
loads the same records as the directory without the malformed file. -/
theorem C8_loader_skips_failures_witness :
    FileSystemRecipeLoader.load (some ([("good.json", some (stringifyPretty2 demoJson))] ++
        ("bad.json", some "oops") :: [])) =
      FileSystemRecipeLoader.load
        (some ([("good.json", some (stringifyPretty2 demoJson))] ++ [])) :=
  C8_loader_skips_failures.2 [("good.json", some (stringifyPretty2 demoJson))] []
    ("bad.json", some "oops") (by decide) (Or.inr ⟨"oops", rfl, by rfl⟩)

/-- C9: a lookup matching no record is not an error: `getByUid` returns the
null sentinel, and the get tool returns a structured not-found payload
with the error flag set instead of raising. -/
theorem C9_not_found (st : RecipeStore) (uid : String)
    (h : ∀ r ∈ RecipeStore.list st, r.uid ≠ uid) :
    RecipeStore.getByUid st uid = none ∧
    (GetRecipeTool.execute uid st).isError = true ∧
    (GetRecipeTool.execute uid st).text =
      stringifyPretty2 (Json.obj (fieldsOf
        [("error", Json.str ("Recipe with UID " ++ uid ++ " not found"))])) := by
  have hnone : RecipeStore.getByUid st uid = none := by
    cases st with
    | mk c =>
      cases c with
      | none => rfl
      | some docs =>
        simp only [RecipeStore.getByUid]
        rw [List.find?_eq_none]
        intro x hx
        have hne := h x (by simpa [RecipeStore.list] using hx)
        simpa using hne
  refine ⟨hnone, ?_, ?_⟩
  · rw [GetRecipeTool.execute, hnone]
  · rw [GetRecipeTool.execute, hnone]

/-- C9 witness: an absent uid on the two-record store. -/
theorem C9_not_found_witness :
    RecipeStore.getByUid twoRecipeStore "zzz" = none ∧
    (GetRecipeTool.execute "zzz" twoRecipeStore).isError = true ∧
    (GetRecipeTool.execute "zzz" twoRecipeStore).text =
      stringifyPretty2 (Json.obj (fieldsOf
        [("error", Json.str ("Recipe with UID " ++ "zzz" ++ " not found"))])) :=
  C9_not_found twoRecipeStore "zzz" (by decide)

/-- C10: the synchronous `count` getter returns 0 in every store state,
even after `load()` has populated records; only the asynchronous
`getCount()` reflects the true number of stored records. -/
theorem C10_count_getter_always_zero :
    (∀ st : RecipeStore, RecipeStore.count st = 0) ∧
    RecipeStore.count (RecipeStore.load emptyStore [recipeA]) = 0 ∧
    RecipeStore.getCount (RecipeStore.load emptyStore [recipeA]) = 1 := by
  refine ⟨fun st => rfl, rfl, by decide⟩
